import Mathlib

/-!
Verification of the stable-identity allocation and change-reconciliation engine
of the omaha-reader web client (`apps/server/web/templates/static/poker-app.js`).

The JavaScript module keeps three pieces of global state: `tableIdMapping`
(a `Map` from detection key to slot-id string), `nextTableId` (the allocation
counter, initially 1) and `previousDetections` (the previous snapshot).  We
embed that state and the functions `loadTableIdMapping`, `assignStableTableId`,
`cleanupStaleTableMappings`, `detectChanges` and the reconciliation part of
`renderCards` as pure Lean functions with explicit state passing, and prove
the specification properties about them.
-/

set_option maxRecDepth 10000

namespace OmahaReader

/-! ## Decimal rendering: JavaScript `Number.prototype.toString` (base 10)
and `String.prototype.padStart(2, '0')`. -/

/-- The decimal digit character for `d` (`0 ↦ '0'`, ..., `9 ↦ '9'`). -/
def digitChar (d : Nat) : Char :=
  match d with
  | 0 => '0' | 1 => '1' | 2 => '2' | 3 => '3' | 4 => '4'
  | 5 => '5' | 6 => '6' | 7 => '7' | 8 => '8' | 9 => '9'
  | _ => '*'

/-- Fuel-driven most-significant-first decimal digits of `n` (empty for 0). -/
def natToCharsAux : Nat → Nat → List Char
  | _, 0 => []
  | 0, _ + 1 => []
  | fuel + 1, n + 1 =>
      natToCharsAux fuel ((n + 1) / 10) ++ [digitChar ((n + 1) % 10)]

/-- Decimal digit characters of `n`; `0` renders as `"0"`, as in JS. -/
def natToChars (n : Nat) : List Char :=
  if n = 0 then ['0'] else natToCharsAux n n

/-- JS `n.toString()` for a natural number: base-10 rendering. -/
def natToString (n : Nat) : String := String.mk (natToChars n)

/-- JS `s.padStart(2, '0')`: left-pad with `'0'` up to length 2. -/
def padStart2 (s : String) : String :=
  String.mk (List.replicate (2 - s.data.length) '0' ++ s.data)

/-- The slot id the allocator formats from a counter value `n`:
`n.toString().padStart(2, '0')` in the source. -/
def slotIdOf (n : Nat) : String := padStart2 (natToString n)

/-- Numeric value of a decimal digit character (JS-style `charCode - 48`). -/
def charVal (c : Char) : Nat := c.toNat - 48

/-- Left fold reading a digit-character list back as a number; a left inverse
of the rendering used to establish injectivity of `slotIdOf`. -/
def ofChars (l : List Char) : Nat :=
  l.foldl (fun acc c => acc * 10 + charVal c) 0

/-! ## Data model

The `Detection` record shape, as the client code accesses it
(`client_id`, `window_name`, `player_cards` with `display`, `table_cards`,
`player_cards_string`, `table_cards_string`, `street`, `positions` with
`player`/`name`, `moves` grouped by street with `player_label`/`action`/
`amount`, optional `solver_link`, `last_update`). -/

structure PCard where
  display : String
deriving DecidableEq, Repr

structure PPosition where
  player : String
  name : String
deriving DecidableEq, Repr

structure PMove where
  player_label : String
  action : String
  amount : Nat
deriving DecidableEq, Repr

structure StreetMoves where
  street : String
  moves : List PMove
deriving DecidableEq, Repr

structure Detection where
  client_id : String
  window_name : String
  player_cards : List PCard
  player_cards_string : String
  table_cards : List PCard
  table_cards_string : String
  street : String
  positions : List PPosition
  moves : List StreetMoves
  solver_link : Option String
  last_update : Nat
deriving DecidableEq, Repr

/-- The detection key: `` `${detection.client_id}_${detection.window_name}` ``. -/
def detKey (d : Detection) : String := d.client_id ++ "_" ++ d.window_name

/-! ## Allocator state and JS `Map` operations

`tableIdMapping` is a JS `Map`, i.e. an insertion-ordered association list
with unique keys; `nextTableId` is the allocation counter. -/

structure AllocState where
  tableIdMapping : List (String × String)
  nextTableId : Nat
deriving DecidableEq, Repr

/-- The module-initialization state: `tableIdMapping = new Map()`,
`nextTableId = 1`. -/
def initialState : AllocState := ⟨[], 1⟩

/-- `MAX_TABLES = 6` in the source (the grid capacity, `N_MAX`). -/
def MAX_TABLES : Nat := 6

/-- JS `Map.prototype.has`. -/
def mapHas (m : List (String × String)) (k : String) : Bool :=
  m.any (fun p => p.1 == k)

/-- JS `Map.prototype.get` (first entry with the key; keys are unique). -/
def mapGet (m : List (String × String)) (k : String) : Option String :=
  (m.find? (fun p => p.1 == k)).map Prod.snd

/-- JS `Map.prototype.set`: update in place if present, else append. -/
def mapSet (m : List (String × String)) (k v : String) : List (String × String) :=
  if mapHas m k then m.map (fun p => if p.1 == k then (k, v) else p)
  else m ++ [(k, v)]

/-- `assignStableTableId` restricted to the computed key.  Returns the slot id
the function returns, the allocator state after the call, and whether
`saveTableIdMapping` was called (a persistence write happened). -/
def assignKey (st : AllocState) (key : String) : String × AllocState × Bool :=
  if mapHas st.tableIdMapping key then
    ((mapGet st.tableIdMapping key).getD (""), st, false)
  else
    let st' : AllocState :=
      ⟨mapSet st.tableIdMapping key (slotIdOf st.nextTableId), st.nextTableId + 1⟩
    ((mapGet st'.tableIdMapping key).getD (""), st', true)

/-- `assignStableTableId(detection)`: computes the key and allocates. -/
def assignStableTableId (st : AllocState) (d : Detection) : String × AllocState × Bool :=
  assignKey st (detKey d)

/-- `cleanupStaleTableMappings` on an explicit list of active keys: deletes
every mapping entry whose key is not active; second component tells whether
anything was deleted (the local `cleaned` flag, which also decides whether
`saveTableIdMapping` is called). -/
def cleanupKeys (st : AllocState) (activeKeys : List String) : AllocState × Bool :=
  (⟨st.tableIdMapping.filter (fun p => activeKeys.contains p.1), st.nextTableId⟩,
   st.tableIdMapping.any (fun p => !activeKeys.contains p.1))

/-- `cleanupStaleTableMappings(activeDetections)`: the active key set is
`activeDetections.map(d => key(d))`. -/
def cleanupStaleTableMappings (st : AllocState) (activeDetections : List Detection) :
    AllocState × Bool :=
  cleanupKeys st (activeDetections.map detKey)

/-- The value the JS `cleanupStaleTableMappings` call evaluates to for its
caller: the function body contains no `return` statement, so the call yields
`undefined`, modelled as `none` (never `some b` for a boolean `b`). -/
def cleanupStaleTableMappingsRet (_st : AllocState) (_activeDetections : List Detection) :
    Option Bool := none

/-! ## Operation traces over the allocator state. -/

inductive Op where
  | assign (key : String)
  | cleanup (activeKeys : List String)
deriving DecidableEq, Repr

def stepOp (st : AllocState) : Op → AllocState
  | .assign k => (assignKey st k).2.1
  | .cleanup a => (cleanupKeys st a).1

def run (st : AllocState) (ops : List Op) : AllocState := ops.foldl stepOp st

/-- `true` iff every cleanup in the trace has `k` among its active keys. -/
def keptActive (k : String) (ops : List Op) : Bool :=
  ops.all fun op =>
    match op with
    | .cleanup a => a.contains k
    | .assign _ => true

/-! ## `loadTableIdMapping`

`localStorage.getItem` yields `none` (missing) or `some` text; `JSON.parse`
either throws (modelled as the parameter `parse` returning `none`) or yields
a record with a `mapping` object and an optional `nextId` number.  The whole
body runs in a `try`/`catch` whose handler only warns, so on a missing item
or a parse failure the state is left unchanged; totality of the Lean function
models that the caller never sees an exception. -/

structure StoredData where
  mapping : List (String × String)
  nextId : Option Nat
deriving DecidableEq, Repr

/-- JS `data.nextId || 1`: `undefined` and `0` are falsy and give 1. -/
def jsOrOne : Option Nat → Nat
  | none => 1
  | some 0 => 1
  | some (n + 1) => n + 1

def loadTableIdMapping (parse : String → Option StoredData) (stored : Option String)
    (st : AllocState) : AllocState :=
  match stored with
  | none => st
  | some s =>
    match parse s with
    | none => st
    | some data => ⟨data.mapping, jsOrOne data.nextId⟩

/-! ## Injectivity of `slotIdOf`

`slotIdOf` renders the counter in decimal and left-pads with zeros; reading
the characters back with `ofChars` recovers the counter, so two distinct
counter values always format to distinct slot ids. -/

theorem charVal_digitChar : ∀ d : Nat, d < 10 → charVal (digitChar d) = d := by decide

theorem digitChar_isDigit : ∀ d : Nat, d < 10 → (digitChar d).isDigit = true := by decide

theorem natToCharsAux_eq_digits :
    ∀ fuel n : Nat, n ≤ fuel →
      natToCharsAux fuel n = ((Nat.digits 10 n).map digitChar).reverse := by
  intro fuel
  induction fuel with
  | zero =>
    intro n hn
    interval_cases n
    simp [natToCharsAux]
  | succ fuel ih =>
    intro n hn
    match n with
    | 0 => simp [natToCharsAux]
    | m + 1 =>
      have hdiv : (m + 1) / 10 ≤ fuel := by
        have h1 : (m + 1) / 10 < m + 1 := Nat.div_lt_self (Nat.succ_pos m) (by norm_num)
        omega
      have hdig : Nat.digits 10 (m + 1) = (m + 1) % 10 :: Nat.digits 10 ((m + 1) / 10) :=
        Nat.digits_def' (by norm_num) (Nat.succ_pos m)
      rw [natToCharsAux, ih _ hdiv, hdig]
      simp

theorem foldl_digits_rev (ds : List Nat) (h : ∀ d ∈ ds, d < 10) (a : Nat) :
    List.foldl (fun acc c => acc * 10 + charVal c) a ((ds.map digitChar).reverse)
      = a * 10 ^ ds.length + Nat.ofDigits 10 ds := by
  induction ds generalizing a with
  | nil => simp [Nat.ofDigits]
  | cons d ds ih =>
    have hd : d < 10 := h d (List.mem_cons_self d ds)
    have hds : ∀ x ∈ ds, x < 10 := fun x hx => h x (List.mem_cons_of_mem d hx)
    simp only [List.map_cons, List.reverse_cons, List.foldl_append, List.foldl_cons,
      List.foldl_nil, ih hds, Nat.ofDigits_cons, List.length_cons,
      charVal_digitChar d hd]
    ring

theorem ofChars_natToChars (n : Nat) : ofChars (natToChars n) = n := by
  by_cases h0 : n = 0
  · subst h0; decide
  · have hpos : 0 < n := Nat.pos_of_ne_zero h0
    have hlt : ∀ d ∈ Nat.digits 10 n, d < 10 :=
      fun d hd => Nat.digits_lt_base (by norm_num) hd
    unfold natToChars ofChars
    rw [if_neg h0, natToCharsAux_eq_digits n n le_rfl, foldl_digits_rev _ hlt 0]
    simp [Nat.ofDigits_digits]

theorem ofChars_replicate_zero (k : Nat) (l : List Char) :
    List.foldl (fun acc c => acc * 10 + charVal c) 0 (List.replicate k '0' ++ l)
      = ofChars l := by
  induction k with
  | zero => simp [ofChars]
  | succ k ih => simpa [List.replicate_succ, charVal] using ih

theorem ofChars_slotIdOf (n : Nat) : ofChars (slotIdOf n).data = n := by
  have : (slotIdOf n).data
      = List.replicate (2 - (natToChars n).length) '0' ++ natToChars n := rfl
  rw [this]
  unfold ofChars
  rw [ofChars_replicate_zero]
  exact ofChars_natToChars n

theorem slotIdOf_injective : Function.Injective slotIdOf := by
  intro a b h
  have := congrArg (fun s => ofChars s.data) h
  simpa [ofChars_slotIdOf] using this

/-! ## Basic lemmas about the JS `Map` operations -/

theorem mapHas_iff_exists (m : List (String × String)) (k : String) :
    mapHas m k = true ↔ ∃ p ∈ m, p.1 = k := by
  simp [mapHas, List.any_eq_true, beq_iff_eq]

theorem mapHas_eq_false_iff (m : List (String × String)) (k : String) :
    mapHas m k = false ↔ ∀ p ∈ m, p.1 ≠ k := by
  rw [← Bool.not_eq_true, mapHas_iff_exists]
  push_neg
  rfl

theorem mapGet_mem {m : List (String × String)} {k v : String}
    (h : mapGet m k = some v) : (k, v) ∈ m := by
  unfold mapGet at h
  rcases Option.map_eq_some'.mp h with ⟨p, hp, hv⟩
  have hk := List.find?_some hp
  have hmem := List.mem_of_find?_eq_some hp
  cases p
  simp only [beq_iff_eq] at hk
  subst hk
  subst hv
  simpa using hmem

theorem mapGet_isSome_of_has {m : List (String × String)} {k : String}
    (h : mapHas m k = true) : (mapGet m k).isSome := by
  rcases (mapHas_iff_exists m k).mp h with ⟨p, hp, hk⟩
  have hfind : (List.find? (fun p => p.1 == k) m).isSome := by
    rw [List.find?_isSome]
    exact ⟨p, hp, by simp [hk]⟩
  rcases Option.isSome_iff_exists.mp hfind with ⟨q, hq⟩
  simp [mapGet, hq]

theorem mapGet_none_of_not_has {m : List (String × String)} {k : String}
    (h : mapHas m k = false) : mapGet m k = none := by
  unfold mapGet
  rw [Option.map_eq_none']
  rw [List.find?_eq_none]
  intro p hp
  simp [beq_iff_eq, (mapHas_eq_false_iff m k).mp h p hp]

theorem mapGet_append_of_has {m l : List (String × String)} {k : String}
    (h : mapHas m k = true) : mapGet (m ++ l) k = mapGet m k := by
  induction m with
  | nil => simp [mapHas] at h
  | cons p m ih =>
    by_cases hp : p.1 == k
    · simp [mapGet, List.find?_cons, hp]
    · have h' : mapHas m k = true := by
        simpa [mapHas, List.any_cons, hp] using h
      simp only [List.cons_append, mapGet, List.find?_cons, hp]
      exact ih h'

theorem mapGet_append_fresh {m : List (String × String)} {k v : String}
    (h : mapHas m k = false) : mapGet (m ++ [(k, v)]) k = some v := by
  induction m with
  | nil => simp [mapGet, List.find?_cons]
  | cons p m ih =>
    have hp : (p.1 == k) = false := by
      simpa [beq_iff_eq] using (mapHas_eq_false_iff _ k).mp h p (List.mem_cons_self p m)
    have h' : mapHas m k = false := by
      rw [mapHas_eq_false_iff]
      intro q hq
      exact (mapHas_eq_false_iff _ k).mp h q (List.mem_cons_of_mem p hq)
    simp only [List.cons_append, mapGet, List.find?_cons, hp]
    exact ih h'

theorem find?_filter_key (m : List (String × String)) (q : String × String → Bool)
    (k : String) (hq : ∀ p : String × String, p.1 = k → q p = true) :
    (m.filter q).find? (fun p => p.1 == k) = m.find? (fun p => p.1 == k) := by
  induction m with
  | nil => simp
  | cons p m ih =>
    by_cases hp : p.1 = k
    · have : q p = true := hq p hp
      simp [List.filter_cons, this, List.find?_cons, hp]
    · have hpb : (p.1 == k) = false := by simp [beq_iff_eq, hp]
      by_cases hqp : q p = true
      · simp [List.filter_cons, hqp, List.find?_cons, hpb, ih]
      · simp only [Bool.not_eq_true] at hqp
        simp [List.filter_cons, hqp, List.find?_cons, hpb, ih]

/-! ## Behaviour of `assignKey` and `cleanupKeys` -/

theorem assignKey_of_get {st : AllocState} {k v : String}
    (h : mapGet st.tableIdMapping k = some v) : assignKey st k = (v, st, false) := by
  have hhas : mapHas st.tableIdMapping k = true := by
    by_contra hc
    rw [Bool.not_eq_true] at hc
    rw [mapGet_none_of_not_has hc] at h
    exact Option.noConfusion h
  simp [assignKey, hhas, h]

theorem assignKey_fresh {st : AllocState} {k : String}
    (h : mapHas st.tableIdMapping k = false) :
    assignKey st k =
      (slotIdOf st.nextTableId,
       ⟨st.tableIdMapping ++ [(k, slotIdOf st.nextTableId)], st.nextTableId + 1⟩,
       true) := by
  simp only [assignKey, h, Bool.false_eq_true, if_false, mapSet]
  rw [mapGet_append_fresh h]
  rfl

theorem mapGet_cleanup {st : AllocState} {k : String} (active : List String)
    (hk : active.contains k = true) :
    mapGet (cleanupKeys st active).1.tableIdMapping k = mapGet st.tableIdMapping k := by
  unfold cleanupKeys mapGet
  simp only
  rw [find?_filter_key]
  intro p hp
  rw [hp]
  exact hk

/-- A mapping entry survives any step whose cleanups keep its key active. -/
theorem mapGet_stepOp {st : AllocState} {k v : String} (op : Op)
    (h : mapGet st.tableIdMapping k = some v)
    (hop : ∀ a, op = Op.cleanup a → a.contains k = true) :
    mapGet (stepOp st op).tableIdMapping k = some v := by
  cases op with
  | assign k' =>
    by_cases hk' : mapHas st.tableIdMapping k' = true
    · simpa [stepOp, assignKey, hk'] using h
    · rw [Bool.not_eq_true] at hk'
      rw [stepOp, assignKey_fresh hk']
      simp only
      have hhas : mapHas st.tableIdMapping k = true := by
        rw [mapHas_iff_exists]
        exact ⟨(k, v), mapGet_mem h, rfl⟩
      rw [mapGet_append_of_has hhas]
      exact h
  | cleanup a =>
    rw [stepOp, mapGet_cleanup a (hop a rfl)]
    exact h

theorem mapGet_run {st : AllocState} {k v : String} (ops : List Op)
    (h : mapGet st.tableIdMapping k = some v)
    (hops : keptActive k ops = true) :
    mapGet (run st ops).tableIdMapping k = some v := by
  induction ops generalizing st with
  | nil => exact h
  | cons op ops ih =>
    simp only [keptActive, List.all_cons, Bool.and_eq_true] at hops
    refine ih ?_ ?_
    · refine mapGet_stepOp op h ?_
      intro a ha
      subst ha
      exact hops.1
    · exact hops.2

/-! ## The reachability invariant: unique keys, unique slot ids, ids formatted
from counter values below the current counter. -/

def Inv (st : AllocState) : Prop :=
  (st.tableIdMapping.map Prod.fst).Nodup ∧
  (st.tableIdMapping.map Prod.snd).Nodup ∧
  ∀ p ∈ st.tableIdMapping, ∃ n, n < st.nextTableId ∧ p.2 = slotIdOf n

theorem Inv_initial : Inv initialState := by
  refine ⟨List.nodup_nil, List.nodup_nil, ?_⟩
  intro p hp
  simp [initialState] at hp

theorem Inv_stepOp {st : AllocState} (op : Op) (h : Inv st) : Inv (stepOp st op) := by
  obtain ⟨hkeys, hvals, hbound⟩ := h
  cases op with
  | assign k =>
    by_cases hk : mapHas st.tableIdMapping k = true
    · simpa [stepOp, assignKey, hk] using ⟨hkeys, hvals, hbound⟩
    · rw [Bool.not_eq_true] at hk
      rw [stepOp, assignKey_fresh hk]
      dsimp only
      refine ⟨?_, ?_, ?_⟩
      · simp only [List.map_append, List.map_cons, List.map_nil, List.nodup_append,
          List.nodup_cons, List.nodup_nil, and_true, List.not_mem_nil, not_false_iff,
          List.disjoint_singleton]
        refine ⟨hkeys, trivial, ?_⟩
        intro hmem
        rcases List.mem_map.mp hmem with ⟨p, hp, hpk⟩
        exact (mapHas_eq_false_iff _ k).mp hk p hp hpk
      · simp only [List.map_append, List.map_cons, List.map_nil, List.nodup_append,
          List.nodup_cons, List.nodup_nil, and_true, List.not_mem_nil, not_false_iff,
          List.disjoint_singleton]
        refine ⟨hvals, trivial, ?_⟩
        intro hmem
        rcases List.mem_map.mp hmem with ⟨p, hp, hpv⟩
        rcases hbound p hp with ⟨n, hn, hpn⟩
        have : slotIdOf n = slotIdOf st.nextTableId := by rw [← hpn, hpv]
        have := slotIdOf_injective this
        omega
      · intro p hp
        rcases List.mem_append.mp hp with hp | hp
        · rcases hbound p hp with ⟨n, hn, hpn⟩
          exact ⟨n, by dsimp only; omega, hpn⟩
        · rcases List.mem_singleton.mp hp with rfl
          exact ⟨st.nextTableId, by dsimp only; omega, rfl⟩
  | cleanup a =>
    refine ⟨?_, ?_, ?_⟩
    · exact ((List.filter_sublist _).map Prod.fst).nodup hkeys
    · exact ((List.filter_sublist _).map Prod.snd).nodup hvals
    · intro p hp
      exact hbound p (List.mem_of_mem_filter hp)

theorem Inv_run (st : AllocState) (ops : List Op) (h : Inv st) : Inv (run st ops) := by
  induction ops generalizing st with
  | nil => exact h
  | cons op ops ih => exact ih _ (Inv_stepOp op h)

/-! ## Counter monotonicity along any trace. -/

theorem nextTableId_stepOp_le (st : AllocState) (op : Op) :
    st.nextTableId ≤ (stepOp st op).nextTableId := by
  cases op with
  | assign k =>
    by_cases hk : mapHas st.tableIdMapping k = true
    · simp [stepOp, assignKey, hk]
    · rw [Bool.not_eq_true] at hk
      rw [stepOp, assignKey_fresh hk]
      dsimp only
      omega
  | cleanup a => simp [stepOp, cleanupKeys]

theorem nextTableId_run_le (st : AllocState) (ops : List Op) :
    st.nextTableId ≤ (run st ops).nextTableId := by
  induction ops generalizing st with
  | nil => exact le_rfl
  | cons op ops ih =>
    exact le_trans (nextTableId_stepOp_le st op) (ih (stepOp st op))

/-! ## The assigned id is retrievable right after an `assign`. -/

theorem contains_eq_true_iff (l : List String) (a : String) :
    l.contains a = true ↔ a ∈ l := by
  simp

theorem mapGet_after_assign (st : AllocState) (k : String) :
    mapGet (assignKey st k).2.1.tableIdMapping k = some (assignKey st k).1 := by
  by_cases hk : mapHas st.tableIdMapping k = true
  · rcases Option.isSome_iff_exists.mp (mapGet_isSome_of_has hk) with ⟨v, hv⟩
    simp [assignKey, hk, hv]
  · rw [Bool.not_eq_true] at hk
    rw [assignKey_fresh hk]
    dsimp only
    exact mapGet_append_fresh hk

/-- C1: Identity stability: once `assign(k)` has produced a slot id, any
further sequence of assigns and cleanups in which every cleanup's active key
set contains `k` preserves the mapping entry for `k`, and `assign(k)` returns
the same slot id again after that sequence. -/
theorem identity_stability (st : AllocState) (k : String) (ops : List Op)
    (hops : keptActive k ops = true) :
    (assignKey (run (assignKey st k).2.1 ops) k).1 = (assignKey st k).1 := by
  have h1 := mapGet_after_assign st k
  have h2 := mapGet_run ops h1 hops
  rw [assignKey_of_get h2]

theorem identity_stability_witness :
    keptActive ("c_w") [Op.cleanup [("c_w")], Op.assign ("x"), Op.cleanup [("c_w"), ("x")]]
        = true ∧
    (assignKey (run (assignKey initialState ("c_w")).2.1
        [Op.cleanup [("c_w")], Op.assign ("x"), Op.cleanup [("c_w"), ("x")]]) ("c_w")).1
      = (assignKey initialState ("c_w")).1 :=
  ⟨by decide, identity_stability initialState ("c_w") _ (by decide)⟩

/-! ## C2: slot-id recycling.

The source computes `nextTableId.toString().padStart(2, '0')` with no modulo
anywhere, so slot-id values are never recycled: the counter grows past
`MAX_TABLES` and later keys get fresh ids `"07"`, `"08"`, ... -/

def sixThenEvictTrace : List Op :=
  [Op.assign ("k1"), Op.assign ("k2"), Op.assign ("k3"), Op.assign ("k4"),
   Op.assign ("k5"), Op.assign ("k6"), Op.cleanup []]

/-- C2 counterexample: six keys take ids `"01"`..`"06"` and are all evicted;
the next key assigned receives `"07"`, which is none of the previously
evicted ids — the id is not computed modulo the alphabet and is not reused. -/
theorem slotId_recycling_counterexample :
    ((run initialState (sixThenEvictTrace.take 6)).tableIdMapping.map Prod.snd
        = [("01"), ("02"), ("03"), ("04"), ("05"), ("06")]) ∧
    (run initialState sixThenEvictTrace).tableIdMapping = [] ∧
    (assignKey (run initialState sixThenEvictTrace) ("k7")).1 = ("07") ∧
    ("07" : String) ∉ ([("01"), ("02"), ("03"), ("04"), ("05"), ("06")] : List String) := by
  decide

/-- C2 (amended): the allocator formats a slot id purely from the counter
value (decimal, zero-padded to two characters, no modulo); the counter only
grows, so a key assigned later never receives an id equal to any id handed
out by an earlier allocation — evicted or not. -/
theorem slotIds_never_recycled (st : AllocState) (k k' : String) (ops : List Op)
    (hk : mapHas st.tableIdMapping k = false)
    (hk' : mapHas (run (assignKey st k).2.1 ops).tableIdMapping k' = false) :
    (assignKey st k).1 = slotIdOf st.nextTableId ∧
    (assignKey (run (assignKey st k).2.1 ops) k').1
      = slotIdOf (run (assignKey st k).2.1 ops).nextTableId ∧
    (assignKey (run (assignKey st k).2.1 ops) k').1 ≠ (assignKey st k).1 := by
  have h1 : (assignKey st k).1 = slotIdOf st.nextTableId := by
    rw [assignKey_fresh hk]
  have h2 : (assignKey (run (assignKey st k).2.1 ops) k').1
      = slotIdOf (run (assignKey st k).2.1 ops).nextTableId := by
    rw [assignKey_fresh hk']
  refine ⟨h1, h2, ?_⟩
  have hstep : (assignKey st k).2.1.nextTableId = st.nextTableId + 1 := by
    rw [assignKey_fresh hk]
  have hrun := nextTableId_run_le (assignKey st k).2.1 ops
  rw [h1, h2]
  intro he
  have := slotIdOf_injective he
  omega

theorem slotIds_never_recycled_witness :
    mapHas initialState.tableIdMapping ("a") = false ∧
    mapHas (run (assignKey initialState ("a")).2.1 [Op.cleanup []]).tableIdMapping ("b")
        = false ∧
    (assignKey (run (assignKey initialState ("a")).2.1 [Op.cleanup []]) ("b")).1
      ≠ (assignKey initialState ("a")).1 :=
  ⟨by decide, by decide,
   (slotIds_never_recycled initialState ("a") ("b") [Op.cleanup []]
      (by decide) (by decide)).2.2⟩

/-! ## C3: bounded cardinality after cleanup. -/

def sevenKeys : List String :=
  [("k1"), ("k2"), ("k3"), ("k4"), ("k5"), ("k6"), ("k7")]

def sevenKeysTrace : List Op :=
  (sevenKeys.map Op.assign) ++ [Op.cleanup sevenKeys]

/-- C3 counterexample: with seven simultaneously active keys, immediately
after a cleanup whose active set contains all seven, the mapping holds seven
distinct slot ids — more than `MAX_TABLES = 6`. -/
theorem bounded_cardinality_counterexample :
    ¬ (((run initialState sevenKeysTrace).tableIdMapping.map Prod.snd).dedup.length
        ≤ MAX_TABLES) := by decide

/-- C3 (amended): immediately after any cleanup call the number of slot ids
in the mapping is at most the number of distinct active keys; the bound
`MAX_TABLES` therefore holds whenever at most `MAX_TABLES` distinct keys are
active, but not in general. -/
theorem cleanup_card_le_active (st : AllocState) (active : List String)
    (hkeys : (st.tableIdMapping.map Prod.fst).Nodup) :
    ((cleanupKeys st active).1.tableIdMapping.map Prod.snd).dedup.length
      ≤ active.dedup.length := by
  set m' := st.tableIdMapping.filter (fun p => active.contains p.1) with hm'
  have hsub : (m'.map Prod.snd).dedup.length ≤ m'.length := by
    calc (m'.map Prod.snd).dedup.length ≤ (m'.map Prod.snd).length :=
          (List.dedup_sublist _).length_le
    _ = m'.length := List.length_map _ _
  have hnd : (m'.map Prod.fst).Nodup := ((List.filter_sublist _).map Prod.fst).nodup hkeys
  have hss : ∀ x ∈ m'.map Prod.fst, x ∈ active := by
    intro x hx
    rcases List.mem_map.mp hx with ⟨p, hp, rfl⟩
    have hc := List.of_mem_filter hp
    exact (contains_eq_true_iff _ _).mp hc
  have hcard : (m'.map Prod.fst).length ≤ active.dedup.length := by
    rw [← List.toFinset_card_of_nodup hnd, ← List.card_toFinset]
    refine Finset.card_le_card ?_
    intro x hx
    rw [List.mem_toFinset] at hx ⊢
    exact hss x hx
  calc ((cleanupKeys st active).1.tableIdMapping.map Prod.snd).dedup.length
      = (m'.map Prod.snd).dedup.length := rfl
  _ ≤ m'.length := hsub
  _ = (m'.map Prod.fst).length := (List.length_map _ _).symm
  _ ≤ active.dedup.length := hcard

theorem cleanup_card_le_active_witness :
    (((⟨[(("a"), ("01")), (("b"), ("02"))], 3⟩ : AllocState).tableIdMapping.map
        Prod.fst).Nodup) ∧
    (((cleanupKeys ⟨[(("a"), ("01")), (("b"), ("02"))], 3⟩
        [("a")]).1.tableIdMapping.map Prod.snd).dedup.length
      ≤ ([("a")] : List String).dedup.length) :=
  ⟨by decide, cleanup_card_le_active _ [("a")] (by decide)⟩

/-- C4: in every state reachable from the initial state (empty mapping,
counter 1) by assigns and cleanups, no two entries with distinct keys hold
the same slot id. -/
theorem at_most_one_key_per_slotId (ops : List Op) (p q : String × String)
    (hp : p ∈ (run initialState ops).tableIdMapping)
    (hq : q ∈ (run initialState ops).tableIdMapping)
    (hne : p.1 ≠ q.1) : p.2 ≠ q.2 := by
  have hinv := Inv_run initialState ops Inv_initial
  intro hv
  exact hne (congrArg Prod.fst (List.inj_on_of_nodup_map hinv.2.1 hp hq hv))

theorem at_most_one_key_per_slotId_witness :
    ((("a"), ("01")) ∈ (run initialState [Op.assign ("a"), Op.assign ("b")]).tableIdMapping) ∧
    ((("b"), ("02")) ∈ (run initialState [Op.assign ("a"), Op.assign ("b")]).tableIdMapping) ∧
    ((("a"), ("01")).2 ≠ ((("b"), ("02")) : String × String).2) :=
  ⟨by decide, by decide,
   at_most_one_key_per_slotId [Op.assign ("a"), Op.assign ("b")] _ _
     (by decide) (by decide) (by decide)⟩

/-! ## C5: what cleanup does, and what it returns. -/

/-- C5 counterexample: a cleanup that does remove an entry (the internal
`cleaned` flag is true and a persistence write happens), yet the JS function
returns `undefined` — it has no return statement — so it does not return
whether a removal occurred. -/
theorem cleanup_return_counterexample :
    ((cleanupStaleTableMappings ⟨[(("gone_t"), ("01"))], 2⟩ []).2 = true) ∧
    cleanupStaleTableMappingsRet ⟨[(("gone_t"), ("01"))], 2⟩ [] ≠ some true := by
  decide

/-- C5 (amended): `cleanupStaleTableMappings(activeDetections)` keeps exactly
the entries whose key is among the active detection keys (every non-active
key is removed, every active mapped key kept), and calls the persistence
write if and only if some entry was removed; it returns no value
(`undefined`), the removal flag being internal only. -/
theorem cleanup_spec (st : AllocState) (ds : List Detection) :
    (∀ p : String × String,
        p ∈ (cleanupStaleTableMappings st ds).1.tableIdMapping ↔
          p ∈ st.tableIdMapping ∧ p.1 ∈ ds.map detKey) ∧
    ((cleanupStaleTableMappings st ds).2 = true ↔
        ∃ p ∈ st.tableIdMapping, p.1 ∉ ds.map detKey) ∧
    cleanupStaleTableMappingsRet st ds = none := by
  refine ⟨?_, ?_, rfl⟩
  · intro p
    have hdef : (cleanupStaleTableMappings st ds).1.tableIdMapping
        = st.tableIdMapping.filter (fun q => (ds.map detKey).contains q.1) := rfl
    rw [hdef, List.mem_filter]
    constructor
    · intro ⟨h1, h2⟩
      exact ⟨h1, (contains_eq_true_iff _ _).mp h2⟩
    · intro ⟨h1, h2⟩
      exact ⟨h1, (contains_eq_true_iff _ _).mpr h2⟩
  · simp only [cleanupStaleTableMappings, cleanupKeys, List.any_eq_true,
      Bool.not_eq_true']
    constructor
    · intro ⟨p, hp, hc⟩
      refine ⟨p, hp, ?_⟩
      intro hmem
      rw [(contains_eq_true_iff _ _).mpr hmem] at hc
      exact Bool.noConfusion hc
    · intro ⟨p, hp, hc⟩
      refine ⟨p, hp, ?_⟩
      rw [← Bool.not_eq_true]
      intro hmem
      exact hc ((contains_eq_true_iff _ _).mp hmem)

/-- C6: `assignStableTableId` on a detection whose key is already mapped
returns the stored slot id and leaves the whole allocator state untouched:
the mapping and the counter are unchanged and no persistence write happens. -/
theorem assign_present_frame (st : AllocState) (d : Detection) (v : String)
    (h : mapGet st.tableIdMapping (detKey d) = some v) :
    assignStableTableId st d = (v, st, false) := by
  unfold assignStableTableId
  exact assignKey_of_get h

def sampleDetection : Detection :=
  ⟨("cid"), ("w1"), [], (""), [], (""), (""), [], [], none, 0⟩

theorem assign_present_frame_witness :
    (mapGet (⟨[(("cid_w1"), ("01"))], 2⟩ : AllocState).tableIdMapping
        (detKey sampleDetection) = some ("01")) ∧
    assignStableTableId ⟨[(("cid_w1"), ("01"))], 2⟩ sampleDetection
      = (("01"), ⟨[(("cid_w1"), ("01"))], 2⟩, false) :=
  ⟨by decide, assign_present_frame _ sampleDetection ("01") (by decide)⟩

/-! ## C7 and C10: `loadTableIdMapping`. -/

/-- C7: at process start (state `{mapping:{}, nextId:1}`), a missing stored
record or one whose text does not parse leaves the identity state as the
empty mapping with counter 1; the `try`/`catch` swallows the parse failure,
so the caller never sees an exception (the embedding is total). -/
theorem load_missing_or_corrupt (parse : String → Option StoredData)
    (stored : Option String)
    (h : stored = none ∨ ∃ s, stored = some s ∧ parse s = none) :
    loadTableIdMapping parse stored initialState = initialState := by
  rcases h with rfl | ⟨s, rfl, hp⟩
  · rfl
  · simp [loadTableIdMapping, hp]

def alwaysFailParse : String → Option StoredData := fun _ => none

theorem load_missing_or_corrupt_witness :
    ((some ("this is not json") : Option String) = none ∨
      ∃ s, (some ("this is not json") : Option String) = some s ∧
        alwaysFailParse s = none) ∧
    loadTableIdMapping alwaysFailParse (some ("this is not json")) initialState
      = initialState :=
  ⟨Or.inr ⟨_, rfl, rfl⟩,
   load_missing_or_corrupt alwaysFailParse _ (Or.inr ⟨_, rfl, rfl⟩)⟩

/-- C10: if the stored record parses but its `nextId` is absent or 0
(`data.nextId || 1` treats both as falsy), `loadTableIdMapping` keeps the
stored mapping entries and sets the counter to 1; a subsequent assign of a
fresh key then returns `slotIdOf 1 = "01"`, an id already held by a
different key of the retained mapping. -/
theorem load_falsy_nextId_collision (parse : String → Option StoredData) (s : String)
    (data : StoredData) (k k' : String)
    (hparse : parse s = some data)
    (hnid : data.nextId = none ∨ data.nextId = some 0)
    (hmem : mapGet data.mapping k = some (slotIdOf 1))
    (hfresh : mapHas data.mapping k' = false) :
    (loadTableIdMapping parse (some s) initialState).nextTableId = 1 ∧
    (loadTableIdMapping parse (some s) initialState).tableIdMapping = data.mapping ∧
    (assignKey (loadTableIdMapping parse (some s) initialState) k').1 = slotIdOf 1 ∧
    mapGet (loadTableIdMapping parse (some s) initialState).tableIdMapping k
      = some (slotIdOf 1) ∧
    k ≠ k' := by
  have hload : loadTableIdMapping parse (some s) initialState
      = ⟨data.mapping, 1⟩ := by
    rcases hnid with h | h <;> simp [loadTableIdMapping, hparse, jsOrOne, h]
  rw [hload]
  refine ⟨rfl, rfl, ?_, hmem, ?_⟩
  · rw [assignKey_fresh hfresh]
  · intro he
    subst he
    have hkmem := mapGet_mem hmem
    rw [mapHas_eq_false_iff] at hfresh
    exact hfresh _ hkmem rfl

def storedSample : StoredData := ⟨[(("kA"), ("01"))], some 0⟩

def parseSample : String → Option StoredData :=
  fun s => if s = ("rec") then some storedSample else none

theorem load_falsy_nextId_collision_witness :
    (parseSample ("rec") = some storedSample) ∧
    (storedSample.nextId = none ∨ storedSample.nextId = some 0) ∧
    (mapGet storedSample.mapping ("kA") = some (slotIdOf 1)) ∧
    (mapHas storedSample.mapping ("kB") = false) ∧
    (assignKey (loadTableIdMapping parseSample (some ("rec")) initialState) ("kB")).1
      = slotIdOf 1 :=
  ⟨rfl, Or.inr rfl, by decide, by decide,
   (load_falsy_nextId_collision parseSample ("rec") storedSample ("kA") ("kB") rfl
      (Or.inr rfl) (by decide) (by decide)).2.2.1⟩

/-! ## C8: the snapshot differencer.

`detectChanges(newDetections)` compares `JSON.stringify(newDetections)` with
`JSON.stringify(previousDetections)`.  We model `JSON.stringify` on the
detection shape: objects serialize their keys in the fixed wire order,
arrays comma-separate their elements, strings are quoted with `"` and `\`
escaped (the escapes relevant to injectivity), numbers render in decimal,
and an absent link serializes as `null`. -/

/-- JSON string escaping of one character (quote and backslash). -/
def escChar (c : Char) : List Char :=
  if c = '"' then ['\\', '"'] else if c = '\\' then ['\\', '\\'] else [c]

def escChars : List Char → List Char
  | [] => []
  | c :: cs => escChar c ++ escChars cs

/-- A JSON string literal: quoted, content escaped. -/
def strChars (s : String) : List Char := '"' :: (escChars s.data ++ ['"'])

/-- `null` for an absent `solver_link`, a string literal otherwise. -/
def nullOrStrChars : Option String → List Char
  | none => ['n', 'u', 'l', 'l']
  | some s => strChars s

/-- Comma-separated serialization of array elements. -/
def commaJoin {α : Type} (f : α → List Char) : List α → List Char
  | [] => []
  | [a] => f a
  | a :: b :: rest => f a ++ (',' :: commaJoin f (b :: rest))

/-- A JSON array literal. -/
def arrChars {α : Type} (f : α → List Char) (l : List α) : List Char :=
  '[' :: (commaJoin f l ++ [']'])

/-- One object field: quoted key, colon, value, then the remainder of the
object. -/
def fieldStr (name : String) (v : List Char) (rest : List Char) : List Char :=
  strChars name ++ (':' :: (v ++ rest))

def cardChars (c : PCard) : List Char :=
  '{' :: fieldStr ("display") (strChars c.display) ['}']

def positionChars (p : PPosition) : List Char :=
  '{' :: fieldStr ("player") (strChars p.player)
    (',' :: fieldStr ("name") (strChars p.name) ['}'])

def moveChars (m : PMove) : List Char :=
  '{' :: fieldStr ("player_label") (strChars m.player_label)
    (',' :: fieldStr ("action") (strChars m.action)
    (',' :: fieldStr ("amount") (natToChars m.amount) ['}']))

def streetMovesChars (sm : StreetMoves) : List Char :=
  '{' :: fieldStr ("street") (strChars sm.street)
    (',' :: fieldStr ("moves") (arrChars moveChars sm.moves) ['}'])

def detectionChars (d : Detection) : List Char :=
  '{' :: fieldStr ("client_id") (strChars d.client_id)
    (',' :: fieldStr ("window_name") (strChars d.window_name)
    (',' :: fieldStr ("player_cards") (arrChars cardChars d.player_cards)
    (',' :: fieldStr ("player_cards_string") (strChars d.player_cards_string)
    (',' :: fieldStr ("table_cards") (arrChars cardChars d.table_cards)
    (',' :: fieldStr ("table_cards_string") (strChars d.table_cards_string)
    (',' :: fieldStr ("street") (strChars d.street)
    (',' :: fieldStr ("positions") (arrChars positionChars d.positions)
    (',' :: fieldStr ("moves") (arrChars streetMovesChars d.moves)
    (',' :: fieldStr ("solver_link") (nullOrStrChars d.solver_link)
    (',' :: fieldStr ("last_update") (natToChars d.last_update) ['}']))))))))))

/-- `JSON.stringify` of a whole snapshot (an array of detections). -/
def stringifyDetections (ds : List Detection) : String :=
  String.mk (arrChars detectionChars ds)

/-- `detectChanges(newDetections)`: `JSON.stringify(newDetections) !==
JSON.stringify(previousDetections)`. -/
def detectChanges (newDetections previousDetections : List Detection) : Bool :=
  stringifyDetections newDetections != stringifyDetections previousDetections

/-! ## Unique decodability of the serialization. -/

theorem escChar_quote : escChar '"' = ['\\', '"'] := by
  simp [escChar]

theorem escChar_backslash : escChar '\\' = ['\\', '\\'] := by
  simp [escChar]

theorem escChar_plain {c : Char} (h1 : c ≠ '"') (h2 : c ≠ '\\') : escChar c = [c] := by
  simp [escChar, h1, h2]

theorem escChar_append_inj {c d : Char} {u v : List Char}
    (h : escChar c ++ u = escChar d ++ v) : c = d ∧ u = v := by
  by_cases hc1 : c = '"'
  · subst hc1
    by_cases hd1 : d = '"'
    · subst hd1
      rw [escChar_quote] at h
      injection h with _ h
      injection h with _ h
      exact ⟨rfl, h⟩
    · by_cases hd2 : d = '\\'
      · subst hd2
        rw [escChar_quote, escChar_backslash] at h
        injection h with _ h
        injection h with h1 _
        exact absurd h1 (by decide)
      · rw [escChar_quote, escChar_plain hd1 hd2, List.singleton_append] at h
        injection h with h1 _
        exact absurd h1.symm hd2
  · by_cases hc2 : c = '\\'
    · subst hc2
      by_cases hd1 : d = '"'
      · subst hd1
        rw [escChar_backslash, escChar_quote] at h
        injection h with _ h
        injection h with h1 _
        exact absurd h1 (by decide)
      · by_cases hd2 : d = '\\'
        · subst hd2
          rw [escChar_backslash] at h
          injection h with _ h
          injection h with _ h
          exact ⟨rfl, h⟩
        · rw [escChar_backslash, escChar_plain hd1 hd2, List.singleton_append] at h
          injection h with h1 _
          exact absurd h1.symm hd2
    · by_cases hd1 : d = '"'
      · subst hd1
        rw [escChar_quote, escChar_plain hc1 hc2, List.singleton_append] at h
        injection h with h1 _
        exact absurd h1 hc2
      · by_cases hd2 : d = '\\'
        · subst hd2
          rw [escChar_backslash, escChar_plain hc1 hc2, List.singleton_append] at h
          injection h with h1 _
          exact absurd h1 hc2
        · rw [escChar_plain hc1 hc2, escChar_plain hd1 hd2,
            List.singleton_append, List.singleton_append] at h
          injection h with h1 h2
          exact ⟨h1, h2⟩

theorem escChar_head_ne_quote (d : Char) (u x : List Char) :
    '"' :: x ≠ escChar d ++ u := by
  intro h
  by_cases hd1 : d = '"'
  · subst hd1
    rw [escChar_quote] at h
    injection h with h1 _
    exact absurd h1 (by decide)
  · by_cases hd2 : d = '\\'
    · subst hd2
      rw [escChar_backslash] at h
      injection h with h1 _
      exact absurd h1 (by decide)
    · rw [escChar_plain hd1 hd2, List.singleton_append] at h
      injection h with h1 _
      exact absurd h1.symm hd1

theorem escChars_append_inj :
    ∀ a b x y : List Char,
      escChars a ++ ('"' :: x) = escChars b ++ ('"' :: y) → a = b ∧ x = y := by
  intro a
  induction a with
  | nil =>
    intro b x y h
    cases b with
    | nil => simpa using h
    | cons d ds =>
      exfalso
      rw [escChars, escChars, List.nil_append, List.append_assoc] at h
      exact escChar_head_ne_quote d _ x h
  | cons c cs ih =>
    intro b x y h
    cases b with
    | nil =>
      exfalso
      rw [escChars, escChars, List.nil_append, List.append_assoc] at h
      exact escChar_head_ne_quote c _ y h.symm
    | cons d ds =>
      rw [escChars, escChars, List.append_assoc, List.append_assoc] at h
      obtain ⟨hcd, hrest⟩ := escChar_append_inj h
      subst hcd
      obtain ⟨hab, hxy⟩ := ih ds x y hrest
      exact ⟨by rw [hab], hxy⟩

theorem stringData_inj {s t : String} (h : s.data = t.data) : s = t := by
  cases s
  cases t
  exact congrArg String.mk h

theorem strChars_append_inj {s t : String} {x y : List Char}
    (h : strChars s ++ x = strChars t ++ y) : s = t ∧ x = y := by
  unfold strChars at h
  rw [List.cons_append, List.cons_append, List.append_assoc, List.append_assoc,
    List.singleton_append, List.singleton_append] at h
  injection h with _ h
  obtain ⟨hst, hxy⟩ := escChars_append_inj _ _ _ _ h
  exact ⟨stringData_inj hst, hxy⟩

/-! ## Maximal-munch decoding of decimal digit runs. -/

def noDigitHead : List Char → Prop
  | [] => True
  | c :: _ => c.isDigit = false

theorem natToChars_all_digits (n : Nat) : ∀ c ∈ natToChars n, c.isDigit = true := by
  by_cases h : n = 0
  · subst h
    intro c hc
    simp [natToChars] at hc
    subst hc
    decide
  · rw [natToChars, if_neg h, natToCharsAux_eq_digits n n le_rfl]
    intro c hc
    rcases List.mem_map.mp (List.mem_reverse.mp hc) with ⟨d, hd, rfl⟩
    exact digitChar_isDigit d (Nat.digits_lt_base (by norm_num) hd)

theorem digit_run_append_inj :
    ∀ p q x y : List Char, (∀ c ∈ p, c.isDigit = true) → (∀ c ∈ q, c.isDigit = true) →
      noDigitHead x → noDigitHead y → p ++ x = q ++ y → p = q ∧ x = y := by
  intro p
  induction p with
  | nil =>
    intro q x y hp hq hx hy h
    cases q with
    | nil => exact ⟨rfl, h⟩
    | cons d ds =>
      exfalso
      rw [List.nil_append, List.cons_append] at h
      cases x with
      | nil => exact List.noConfusion h
      | cons c cs =>
        injection h with h1 h2
        subst h1
        have hd := hq c (List.mem_cons_self c ds)
        have hc : c.isDigit = false := hx
        rw [hd] at hc
        exact Bool.noConfusion hc
  | cons c cs ih =>
    intro q x y hp hq hx hy h
    cases q with
    | nil =>
      exfalso
      rw [List.nil_append, List.cons_append] at h
      cases y with
      | nil => exact List.noConfusion h
      | cons d ds =>
        injection h with h1 h2
        subst h1
        have hd := hp c (List.mem_cons_self c cs)
        have hc : c.isDigit = false := hy
        rw [hd] at hc
        exact Bool.noConfusion hc
    | cons d ds =>
      rw [List.cons_append, List.cons_append] at h
      injection h with h1 h2
      subst h1
      obtain ⟨hpq, hxy⟩ :=
        ih ds x y (fun e he => hp e (List.mem_cons_of_mem c he))
          (fun e he => hq e (List.mem_cons_of_mem c he)) hx hy h2
      exact ⟨by rw [hpq], hxy⟩

theorem natToChars_append_inj {a b : Nat} {x y : List Char}
    (hx : noDigitHead x) (hy : noDigitHead y)
    (h : natToChars a ++ x = natToChars b ++ y) : a = b ∧ x = y := by
  obtain ⟨hpq, hxy⟩ := digit_run_append_inj _ _ x y (natToChars_all_digits a)
    (natToChars_all_digits b) hx hy h
  refine ⟨?_, hxy⟩
  have h2 := congrArg ofChars hpq
  rwa [ofChars_natToChars, ofChars_natToChars] at h2

theorem noDigitHead_rbrace (x : List Char) : noDigitHead ('}' :: x) := by
  show ('}' : Char).isDigit = false
  decide

theorem nullOrStrChars_append_inj {o1 o2 : Option String} {x y : List Char}
    (h : nullOrStrChars o1 ++ x = nullOrStrChars o2 ++ y) : o1 = o2 ∧ x = y := by
  cases o1 with
  | none =>
    cases o2 with
    | none =>
      simp only [nullOrStrChars, List.cons_append, List.nil_append] at h
      injection h with _ h
      injection h with _ h
      injection h with _ h
      injection h with _ h
      exact ⟨rfl, h⟩
    | some t =>
      exfalso
      simp only [nullOrStrChars, strChars, List.cons_append, List.nil_append] at h
      injection h with hq _
      exact absurd hq (by decide)
  | some s =>
    cases o2 with
    | none =>
      exfalso
      simp only [nullOrStrChars, strChars, List.cons_append, List.nil_append] at h
      injection h with hq _
      exact absurd hq (by decide)
    | some t =>
      simp only [nullOrStrChars] at h
      obtain ⟨hst, hxy⟩ := strChars_append_inj h
      exact ⟨by rw [hst], hxy⟩

theorem commaJoin_append_inj {α : Type} (f : α → List Char)
    (hf : ∀ (a b : α) (x y : List Char), f a ++ x = f b ++ y → a = b ∧ x = y)
    (hhead : ∀ a : α, ∃ r, f a = '{' :: r) :
    ∀ (l1 l2 : List α) (x y : List Char),
      commaJoin f l1 ++ (']' :: x) = commaJoin f l2 ++ (']' :: y) →
      l1 = l2 ∧ x = y := by
  intro l1
  induction l1 with
  | nil =>
    intro l2 x y h
    cases l2 with
    | nil =>
      simp only [commaJoin, List.nil_append] at h
      injection h with _ h
      exact ⟨rfl, h⟩
    | cons b bs =>
      exfalso
      obtain ⟨r, hr⟩ := hhead b
      cases bs with
      | nil =>
        simp only [commaJoin, List.nil_append, hr, List.cons_append] at h
        injection h with h1 _
        exact absurd h1 (by decide)
      | cons b2 bs2 =>
        simp only [commaJoin, List.nil_append, hr, List.cons_append,
          List.append_assoc] at h
        injection h with h1 _
        exact absurd h1 (by decide)
  | cons a as ih =>
    intro l2 x y h
    cases l2 with
    | nil =>
      exfalso
      obtain ⟨r, hr⟩ := hhead a
      cases as with
      | nil =>
        simp only [commaJoin, List.nil_append, hr, List.cons_append] at h
        injection h with h1 _
        exact absurd h1 (by decide)
      | cons a2 as2 =>
        simp only [commaJoin, List.nil_append, hr, List.cons_append,
          List.append_assoc] at h
        injection h with h1 _
        exact absurd h1 (by decide)
    | cons b bs =>
      cases as with
      | nil =>
        cases bs with
        | nil =>
          simp only [commaJoin] at h
          obtain ⟨hab, hxy⟩ := hf a b _ _ h
          injection hxy with _ hxy
          exact ⟨by rw [hab], hxy⟩
        | cons b2 bs2 =>
          exfalso
          simp only [commaJoin, List.append_assoc] at h
          obtain ⟨hab, hxy⟩ := hf a b _ _ h
          injection hxy with h1 _
          exact absurd h1 (by decide)
      | cons a2 as2 =>
        cases bs with
        | nil =>
          exfalso
          simp only [commaJoin, List.append_assoc] at h
          obtain ⟨hab, hxy⟩ := hf a b _ _ h
          injection hxy with h1 _
          exact absurd h1 (by decide)
        | cons b2 bs2 =>
          simp only [commaJoin, List.append_assoc] at h
          obtain ⟨hab, hxy⟩ := hf a b _ _ h
          injection hxy with _ hxy
          obtain ⟨hl, hx⟩ := ih (b2 :: bs2) x y hxy
          exact ⟨by rw [hab, hl], hx⟩

theorem arrChars_append_inj {α : Type} (f : α → List Char)
    (hf : ∀ (a b : α) (x y : List Char), f a ++ x = f b ++ y → a = b ∧ x = y)
    (hhead : ∀ a : α, ∃ r, f a = '{' :: r)
    {l1 l2 : List α} {x y : List Char}
    (h : arrChars f l1 ++ x = arrChars f l2 ++ y) : l1 = l2 ∧ x = y := by
  unfold arrChars at h
  rw [List.cons_append, List.cons_append, List.append_assoc, List.append_assoc,
    List.singleton_append, List.singleton_append] at h
  injection h with _ h
  exact commaJoin_append_inj f hf hhead l1 l2 x y h

theorem fieldStr_append (name : String) (v rest x : List Char) :
    fieldStr name v rest ++ x = fieldStr name v (rest ++ x) := by
  unfold fieldStr
  simp [List.append_assoc]

theorem fieldStr_peel {name : String} {v1 v2 r1 r2 : List Char}
    (h : fieldStr name v1 r1 = fieldStr name v2 r2) : v1 ++ r1 = v2 ++ r2 := by
  unfold fieldStr at h
  have h2 := List.append_cancel_left h
  injection h2 with _ h3

theorem comma_peel {F G x y : List Char}
    (h : (',' :: F) ++ x = (',' :: G) ++ y) : F ++ x = G ++ y := by
  rw [List.cons_append, List.cons_append] at h
  injection h with _ h

theorem rbrace_end_peel {x y : List Char}
    (h : ['}'] ++ x = ['}'] ++ y) : x = y := by
  rw [List.singleton_append, List.singleton_append] at h
  injection h with _ h

theorem cardChars_append_inj :
    ∀ (a b : PCard) (x y : List Char),
      cardChars a ++ x = cardChars b ++ y → a = b ∧ x = y := by
  intro a b x y h
  unfold cardChars at h
  rw [List.cons_append, List.cons_append, fieldStr_append, fieldStr_append] at h
  injection h with _ h
  have h := fieldStr_peel h
  obtain ⟨hd, hxy⟩ := strChars_append_inj h
  have hxy := rbrace_end_peel hxy
  cases a
  cases b
  simp_all

theorem positionChars_append_inj :
    ∀ (a b : PPosition) (x y : List Char),
      positionChars a ++ x = positionChars b ++ y → a = b ∧ x = y := by
  intro a b x y h
  unfold positionChars at h
  rw [List.cons_append, List.cons_append, fieldStr_append, fieldStr_append] at h
  injection h with _ h
  have h := fieldStr_peel h
  obtain ⟨h1, h⟩ := strChars_append_inj h
  have h := comma_peel h
  rw [fieldStr_append, fieldStr_append] at h
  have h := fieldStr_peel h
  obtain ⟨h2, h⟩ := strChars_append_inj h
  have h := rbrace_end_peel h
  cases a
  cases b
  simp_all

theorem moveChars_append_inj :
    ∀ (a b : PMove) (x y : List Char),
      moveChars a ++ x = moveChars b ++ y → a = b ∧ x = y := by
  intro a b x y h
  unfold moveChars at h
  rw [List.cons_append, List.cons_append, fieldStr_append, fieldStr_append] at h
  injection h with _ h
  have h := fieldStr_peel h
  obtain ⟨h1, h⟩ := strChars_append_inj h
  have h := comma_peel h
  rw [fieldStr_append, fieldStr_append] at h
  have h := fieldStr_peel h
  obtain ⟨h2, h⟩ := strChars_append_inj h
  have h := comma_peel h
  rw [fieldStr_append, fieldStr_append] at h
  have h := fieldStr_peel h
  rw [List.singleton_append, List.singleton_append] at h
  obtain ⟨h3, h⟩ := natToChars_append_inj (noDigitHead_rbrace x) (noDigitHead_rbrace y) h
  injection h with _ h
  cases a
  cases b
  simp_all

theorem streetMovesChars_append_inj :
    ∀ (a b : StreetMoves) (x y : List Char),
      streetMovesChars a ++ x = streetMovesChars b ++ y → a = b ∧ x = y := by
  intro a b x y h
  unfold streetMovesChars at h
  rw [List.cons_append, List.cons_append, fieldStr_append, fieldStr_append] at h
  injection h with _ h
  have h := fieldStr_peel h
  obtain ⟨h1, h⟩ := strChars_append_inj h
  have h := comma_peel h
  rw [fieldStr_append, fieldStr_append] at h
  have h := fieldStr_peel h
  obtain ⟨h2, h⟩ := arrChars_append_inj moveChars moveChars_append_inj
    (fun m => ⟨_, rfl⟩) h
  have h := rbrace_end_peel h
  cases a
  cases b
  simp_all

theorem detectionChars_append_inj :
    ∀ (a b : Detection) (x y : List Char),
      detectionChars a ++ x = detectionChars b ++ y → a = b ∧ x = y := by
  intro a b x y h
  unfold detectionChars at h
  rw [List.cons_append, List.cons_append, fieldStr_append, fieldStr_append] at h
  injection h with _ h
  have h := fieldStr_peel h
  obtain ⟨h1, h⟩ := strChars_append_inj h
  have h := comma_peel h
  rw [fieldStr_append, fieldStr_append] at h
  have h := fieldStr_peel h
  obtain ⟨h2, h⟩ := strChars_append_inj h
  have h := comma_peel h
  rw [fieldStr_append, fieldStr_append] at h
  have h := fieldStr_peel h
  obtain ⟨h3, h⟩ := arrChars_append_inj cardChars cardChars_append_inj
    (fun c => ⟨_, rfl⟩) h
  have h := comma_peel h
  rw [fieldStr_append, fieldStr_append] at h
  have h := fieldStr_peel h
  obtain ⟨h4, h⟩ := strChars_append_inj h
  have h := comma_peel h
  rw [fieldStr_append, fieldStr_append] at h
  have h := fieldStr_peel h
  obtain ⟨h5, h⟩ := arrChars_append_inj cardChars cardChars_append_inj
    (fun c => ⟨_, rfl⟩) h
  have h := comma_peel h
  rw [fieldStr_append, fieldStr_append] at h
  have h := fieldStr_peel h
  obtain ⟨h6, h⟩ := strChars_append_inj h
  have h := comma_peel h
  rw [fieldStr_append, fieldStr_append] at h
  have h := fieldStr_peel h
  obtain ⟨h7, h⟩ := strChars_append_inj h
  have h := comma_peel h
  rw [fieldStr_append, fieldStr_append] at h
  have h := fieldStr_peel h
  obtain ⟨h8, h⟩ := arrChars_append_inj positionChars positionChars_append_inj
    (fun p => ⟨_, rfl⟩) h
  have h := comma_peel h
  rw [fieldStr_append, fieldStr_append] at h
  have h := fieldStr_peel h
  obtain ⟨h9, h⟩ := arrChars_append_inj streetMovesChars streetMovesChars_append_inj
    (fun sm => ⟨_, rfl⟩) h
  have h := comma_peel h
  rw [fieldStr_append, fieldStr_append] at h
  have h := fieldStr_peel h
  obtain ⟨h10, h⟩ := nullOrStrChars_append_inj h
  have h := comma_peel h
  rw [fieldStr_append, fieldStr_append] at h
  have h := fieldStr_peel h
  rw [List.singleton_append, List.singleton_append] at h
  obtain ⟨h11, h⟩ := natToChars_append_inj (noDigitHead_rbrace x) (noDigitHead_rbrace y) h
  injection h with _ h
  cases a
  cases b
  simp_all

theorem detectionsChars_inj {s t : List Detection}
    (h : arrChars detectionChars s = arrChars detectionChars t) : s = t := by
  have h2 : arrChars detectionChars s ++ ([] : List Char)
      = arrChars detectionChars t ++ ([] : List Char) := by
    simpa using h
  exact (arrChars_append_inj detectionChars detectionChars_append_inj
    (fun d => ⟨_, rfl⟩) h2).1

/-- C8: the snapshot differencer is structural, order-sensitive equality over
the serialized content: `detectChanges` is true iff the serializations of the
two snapshots differ, equivalently iff the snapshots differ structurally — in
any field of any detection or in the number or order of detections — and it
is false on a structurally identical copy. -/
theorem detectChanges_spec (previous next : List Detection) :
    (detectChanges next previous = true ↔
        stringifyDetections next ≠ stringifyDetections previous) ∧
    (detectChanges next previous = true ↔ next ≠ previous) ∧
    detectChanges previous previous = false := by
  have hser : ∀ a b : List Detection, detectChanges a b = true ↔
      stringifyDetections a ≠ stringifyDetections b := by
    intro a b
    simp [detectChanges, bne_iff_ne]
  have hstruct : ∀ a b : List Detection,
      stringifyDetections a = stringifyDetections b ↔ a = b := by
    intro a b
    constructor
    · intro h
      exact detectionsChars_inj (congrArg String.data h)
    · intro h
      rw [h]
  refine ⟨hser next previous, ?_, ?_⟩
  · rw [hser next previous]
    exact not_congr (hstruct next previous)
  · rw [← Bool.not_eq_true, hser previous previous]
    simp

/-! ## C9: `renderCards` with more active keys than grid slots.

The paint loop of `renderCards` iterates the fixed grid positions
`i = 1 .. MAX_TABLES` only, painting the slot whose id has a detection in the
slot-to-detection map and the waiting placeholder otherwise. -/

/-- The fixed grid ids `"01"` .. `"06"` (`i.toString().padStart(2, '0')`). -/
def SLOT_IDS : List String := (List.range MAX_TABLES).map (fun i => slotIdOf (i + 1))

/-- Assign a stable id to every detection of the pass.  The `sort` comparator
and the `forEach` of `renderCards` call `assignStableTableId` on each
detection; after a key's first call every further call is a pure lookup, so
the state after the pass is the fold of the assignments in first-call order. -/
def assignAll (st : AllocState) (ds : List Detection) : AllocState :=
  ds.foldl (fun s d => (assignStableTableId s d).2.1) st

/-- Allocator state after the reconciliation part of `renderCards`:
`cleanupStaleTableMappings(detections)`, then the assignments.
`assignOrder` is the order in which keys receive their first
`assignStableTableId` call (the engine probes the sort comparator in an
implementation-defined order; the properties below hold for every order). -/
def renderStateWith (st : AllocState) (ds assignOrder : List Detection) : AllocState :=
  assignAll (cleanupStaleTableMappings st ds).1 assignOrder

/-- `renderCards` reconciliation with first calls in delivery order. -/
def renderState (st : AllocState) (ds : List Detection) : AllocState :=
  renderStateWith st ds ds

/-- The detection painted into grid slot `slotId`: `detectionMap.get(slotId)`,
where each detection was written under its assigned id, later writes winning;
with pairwise distinct active keys the assigned ids are pairwise distinct, so
at most one detection matches and the write order is irrelevant. -/
def detectionFor (st : AllocState) (ds : List Detection) (slotId : String) :
    Option Detection :=
  ds.reverse.find? (fun d => mapGet st.tableIdMapping (detKey d) == some slotId)

/-- The mapping entries created by assigning fresh keys in order, starting at
counter value `n`. -/
def expectedEntries (n : Nat) : List Detection → List (String × String)
  | [] => []
  | d :: ds => (detKey d, slotIdOf n) :: expectedEntries (n + 1) ds

theorem mapHas_append_false {m : List (String × String)} {k0 v k : String}
    (h1 : mapHas m k = false) (h2 : k0 ≠ k) :
    mapHas (m ++ [(k0, v)]) k = false := by
  rw [mapHas_eq_false_iff] at h1 ⊢
  intro p hp
  rcases List.mem_append.mp hp with hp | hp
  · exact h1 p hp
  · rcases List.mem_singleton.mp hp with rfl
    exact h2

theorem assignAll_fresh (st : AllocState) (ds : List Detection)
    (hnd : (ds.map detKey).Nodup)
    (hfresh : ∀ d ∈ ds, mapHas st.tableIdMapping (detKey d) = false) :
    assignAll st ds =
      ⟨st.tableIdMapping ++ expectedEntries st.nextTableId ds,
       st.nextTableId + ds.length⟩ := by
  induction ds generalizing st with
  | nil =>
    cases st
    simp [assignAll, expectedEntries]
  | cons d ds ih =>
    have hd := hfresh d (List.mem_cons_self d ds)
    have hstep : assignAll st (d :: ds)
        = assignAll ⟨st.tableIdMapping ++ [(detKey d, slotIdOf st.nextTableId)],
            st.nextTableId + 1⟩ ds := by
      simp only [assignAll, List.foldl_cons]
      congr 1
      show (assignStableTableId st d).2.1 = _
      unfold assignStableTableId
      rw [assignKey_fresh hd]
    rw [List.map_cons, List.nodup_cons] at hnd
    rw [hstep, ih _ hnd.2 ?_]
    · dsimp only
      congr 1
      · rw [List.append_assoc, List.singleton_append]
        rfl
      · rw [List.length_cons]
        omega
    · intro d' hd'
      refine mapHas_append_false (hfresh d' (List.mem_cons_of_mem d hd')) ?_
      intro he
      apply hnd.1
      rw [he]
      exact List.mem_map_of_mem detKey hd'

theorem expectedEntries_keys (n : Nat) (ds : List Detection) :
    (expectedEntries n ds).map Prod.fst = ds.map detKey := by
  induction ds generalizing n with
  | nil => rfl
  | cons d ds ih => simp [expectedEntries, ih]

theorem expectedEntries_mem_val (n : Nat) (ds : List Detection) :
    ∀ p ∈ expectedEntries n ds, ∃ m, n ≤ m ∧ m < n + ds.length ∧ p.2 = slotIdOf m := by
  induction ds generalizing n with
  | nil =>
    intro p hp
    simp [expectedEntries] at hp
  | cons d ds ih =>
    intro p hp
    rcases List.mem_cons.mp hp with rfl | hp
    · refine ⟨n, le_rfl, ?_, rfl⟩
      rw [List.length_cons]
      omega
    · rcases ih (n + 1) p hp with ⟨m, hm1, hm2, hm3⟩
      refine ⟨m, by omega, ?_, hm3⟩
      rw [List.length_cons]
      omega

theorem expectedEntries_vals_nodup (n : Nat) (ds : List Detection) :
    ((expectedEntries n ds).map Prod.snd).Nodup := by
  induction ds generalizing n with
  | nil => simp [expectedEntries]
  | cons d ds ih =>
    simp only [expectedEntries, List.map_cons, List.nodup_cons]
    refine ⟨?_, ih (n + 1)⟩
    intro hmem
    rcases List.mem_map.mp hmem with ⟨p, hp, hpv⟩
    rcases expectedEntries_mem_val (n + 1) ds p hp with ⟨m, hm1, _, hm3⟩
    have heq := hm3.symm.trans hpv
    have := slotIdOf_injective heq
    omega

theorem slotIdOf_notin_SLOT_IDS {m : Nat} (h : MAX_TABLES < m) :
    slotIdOf m ∉ SLOT_IDS := by
  intro hmem
  rcases List.mem_map.mp hmem with ⟨i, hi, hv⟩
  rw [List.mem_range] at hi
  have := slotIdOf_injective hv
  omega

/-- C9: overflow behaviour with more active keys than grid slots: with
pairwise distinct detection keys, starting from the initial allocator state,
the reconciliation pass of `renderCards` gives every key a distinct slot id
(`slotIdOf 1`, `slotIdOf 2`, ... in first-call order — the counter keeps
incrementing past `MAX_TABLES`, producing `"07"`, `"08"`, ...), the mapping
retains all of them, and the paint loop — which iterates only the fixed grid
ids — never paints a detection whose assigned id lies outside the grid; the
detection is silently not displayed and no error is raised (the embedding is
total). -/
theorem render_overflow (ds assignOrder : List Detection)
    (hnd : (ds.map detKey).Nodup) (hperm : assignOrder.Perm ds) :
    (renderStateWith initialState ds assignOrder).tableIdMapping
        = expectedEntries 1 assignOrder ∧
    ((renderStateWith initialState ds assignOrder).tableIdMapping.map Prod.snd).Nodup ∧
    (∀ d ∈ ds, ∃ s, mapGet (renderStateWith initialState ds assignOrder).tableIdMapping
        (detKey d) = some s) ∧
    (∀ m : Nat, MAX_TABLES < m → slotIdOf m ∉ SLOT_IDS) ∧
    (∀ d ∈ ds, ∀ s, mapGet (renderStateWith initialState ds assignOrder).tableIdMapping
          (detKey d) = some s → s ∉ SLOT_IDS →
        ∀ s' ∈ SLOT_IDS,
          detectionFor (renderStateWith initialState ds assignOrder) ds s' ≠ some d) := by
  have hond : (assignOrder.map detKey).Nodup := ((hperm.map detKey).nodup_iff).mpr hnd
  have hclean : (cleanupStaleTableMappings initialState ds).1 = initialState := rfl
  have hmain : renderStateWith initialState ds assignOrder
      = ⟨expectedEntries 1 assignOrder, 1 + assignOrder.length⟩ := by
    unfold renderStateWith
    rw [hclean, assignAll_fresh initialState assignOrder hond (fun d _ => rfl)]
    rfl
  have hmap : (renderStateWith initialState ds assignOrder).tableIdMapping
      = expectedEntries 1 assignOrder := by rw [hmain]
  refine ⟨hmap, ?_, ?_, ?_, ?_⟩
  · rw [hmap]
    exact expectedEntries_vals_nodup 1 assignOrder
  · intro d hd
    have hkmem : detKey d ∈ (expectedEntries 1 assignOrder).map Prod.fst := by
      rw [expectedEntries_keys]
      exact List.mem_map_of_mem detKey (hperm.mem_iff.mpr hd)
    rcases List.mem_map.mp hkmem with ⟨p, hp, hpk⟩
    have hhas : mapHas (renderStateWith initialState ds assignOrder).tableIdMapping
        (detKey d) = true := by
      rw [hmap, mapHas_iff_exists]
      exact ⟨p, hp, hpk⟩
    rcases Option.isSome_iff_exists.mp (mapGet_isSome_of_has hhas) with ⟨s, hs⟩
    exact ⟨s, hs⟩
  · intro m hm
    exact slotIdOf_notin_SLOT_IDS hm
  · intro d hd s hs hnot s' hs' hfind
    have hpred := List.find?_some hfind
    rw [beq_iff_eq] at hpred
    rw [hs] at hpred
    injection hpred with hpred
    rw [← hpred] at hs'
    exact hnot hs'

def mkDet (cid wname : String) : Detection :=
  ⟨cid, wname, [], (""), [], (""), (""), [], [], none, 0⟩

def sevenDetections : List Detection :=
  [mkDet ("c1") ("w"), mkDet ("c2") ("w"), mkDet ("c3") ("w"), mkDet ("c4") ("w"),
   mkDet ("c5") ("w"), mkDet ("c6") ("w"), mkDet ("c7") ("w")]

theorem render_overflow_witness :
    ((sevenDetections.map detKey).Nodup) ∧
    (MAX_TABLES < sevenDetections.length) ∧
    (mapGet (renderState initialState sevenDetections).tableIdMapping
        (detKey (mkDet ("c7") ("w"))) = some ("07")) ∧
    (("07" : String) ∉ SLOT_IDS) ∧
    (∀ s' ∈ SLOT_IDS,
        detectionFor (renderState initialState sevenDetections) sevenDetections s'
          ≠ some (mkDet ("c7") ("w"))) :=
  ⟨by decide, by decide, by decide, by decide,
   (render_overflow sevenDetections sevenDetections (by decide)
      (List.Perm.refl _)).2.2.2.2 (mkDet ("c7") ("w")) (by decide) ("07")
      (by decide) (by decide)⟩

end OmahaReader
